import Mathlib

/-!
Verification of the host-side signed-value Registry against its
specification.  The registry implementation itself is not part of the
supplied source tree (only its test suite,
`src/modules/host/registry/registry_test.go`, is), so the definitions below
are modelled from the specification's data model (§3), component design
(§4), error taxonomy (§7) and testable properties (§8), with the names the
test suite uses for the Go symbols (`New`, `Update`, `Prune`, `entries`,
`staticUsage`, `staticIndex`, `invalid`, `errTooMuchData`, ...).
-/

set_option maxHeartbeats 1000000

namespace Sia

/-- Byte strings, modelled as lists of naturals. -/
abbrev Bytes := List Nat

/-- Public keys (curve key plus algorithm tag), modelled abstractly. -/
abbrev PublicKey := Nat

/-- Tweaks: 32-byte opaque discriminators, modelled abstractly. -/
abbrev Tweak := Nat

/-- Modelled from the spec: signatures are consumed through a pure
verification function over the canonical encoding of (tweak, data, revision)
under the public key (§6 "Signature verify: pure function").  A signature is
modelled as the canonical encoding tagged with the signing key, so that
verification is equality with the encoding; the toy scheme identifies secret
and public keys. -/
abbrev Sig := Nat × Nat × Bytes × Nat

/-- Modelled from the spec: signing produces the canonical encoding of
(tweak, data, revision) tagged with the signing key. -/
def Sign (sk : Nat) (tweak : Tweak) (data : Bytes) (revision : Nat) : Sig :=
  (sk, tweak, data, revision)

/-- A signed registry value as submitted by a caller: tweak, data, revision
and signature (spec §4.4, `signed_value`). -/
structure RegistryValue where
  tweak : Tweak
  data : Bytes
  revision : Nat
  signature : Sig
deriving DecidableEq, Repr

/-- Modelled from the spec: verifying the signature against
(tweak, data, revision) under the public key. -/
def RegistryValue.verify (rv : RegistryValue) (pk : PublicKey) : Bool :=
  decide (rv.signature = Sign pk rv.tweak rv.data rv.revision)

/-- Modelled from the spec: the fingerprint H(public_key ‖ tweak) keying the
entry index; the 32-byte hash is modelled as an injective pairing, since the
spec assumes hash collisions are negligible (§3). -/
abbrev Fingerprint := Nat × Nat

/-- The fingerprint of a public key and tweak (the index key). -/
def valueMapKey (pk : PublicKey) (tweak : Tweak) : Fingerprint := (pk, tweak)

/-- Maximum data length per entry: 113 bytes (spec §6). -/
def RegistryDataSize : Nat := 113

/-- Modelled from the spec: the in-memory entry record (`value` in the test
suite): key, tweak, revision, expiry, data, signature, its 1-based slot
index, and the in-memory `invalid` flag (§3). -/
structure Value where
  key : PublicKey
  tweak : Tweak
  expiry : Nat
  data : Bytes
  revision : Nat
  signature : Sig
  staticIndex : Nat
  invalid : Bool
deriving DecidableEq, Repr

/-- The fingerprint of an entry record. -/
def Value.mapKey (v : Value) : Fingerprint := valueMapKey v.key v.tweak

/-- Modelled from the spec: the decoded body of an entry page
(§4.1): public key, tweak, revision, expiry, data and signature.  The
`used_flag` and checksum live on the page, the slot index is the page's
position. -/
structure EntryBody where
  key : PublicKey
  tweak : Tweak
  expiry : Nat
  data : Bytes
  revision : Nat
  signature : Sig
deriving DecidableEq, Repr

/-- The body persisted for an in-memory record (spec §4.1). -/
def Value.persist (v : Value) : EntryBody :=
  ⟨v.key, v.tweak, v.expiry, v.data, v.revision, v.signature⟩

/-- The in-memory record decoded from a page body found at slot `slot`;
the `invalid` flag is not persisted, so it starts out `false` (§4.4). -/
def EntryBody.reconstruct (b : EntryBody) (slot : Nat) : Value :=
  ⟨b.key, b.tweak, b.expiry, b.data, b.revision, b.signature, slot, false⟩

/-- The fingerprint of a decoded page body. -/
def EntryBody.fingerprint (b : EntryBody) : Fingerprint := valueMapKey b.key b.tweak

/-- Modelled from the spec: an entry page of the slot file (§4.1): a
checksum over the body (modelled as the bit `checksumOk`, whether the
checksum verifies), the `used_flag`, and the decoded body. -/
structure Page where
  checksumOk : Bool
  used : Bool
  body : EntryBody
deriving DecidableEq, Repr

/-- The all-zero page body. -/
def zeroBody : EntryBody := ⟨0, 0, 0, [], 0, (0, 0, [], 0)⟩

/-- An unused page: `used_flag = 0`, zeroed body, valid checksum (§4.4
Prune step 4). -/
def unusedPage : Page := ⟨true, false, zeroBody⟩

/-- A page holds a live entry iff its checksum verifies and its
`used_flag` is 1 (spec §4.1 "Loading"). -/
def Page.live (p : Page) : Bool := p.checksumOk && p.used

/-- The page written for a live entry: `used_flag = 1`, the persisted body,
and a checksum that verifies (spec §4.4, "Builds the page bytes"). -/
def Page.forValue (v : Value) : Page := ⟨true, true, v.persist⟩

/-- Modelled from the spec: the Registry state the claims are about — the
in-memory entry index (an association list from fingerprints to records, in
insertion order), the usage bitfield `staticUsage`, and the entry pages
1..N of the on-disk slot file (§2; the metadata page and the WAL, which the
spec treats as an atomic-write service, are not represented). -/
structure Registry where
  entries : List (Fingerprint × Value)
  staticUsage : List Bool
  file : List Page
deriving DecidableEq, Repr

/-- First-match lookup in the entry index. -/
def lookupFp (f : Fingerprint) : List (Fingerprint × Value) → Option Value
  | [] => none
  | e :: rest => if e.1 = f then some e.2 else lookupFp f rest

/-- Replace the binding of `f` (the first one, the only one when the keys
are distinct) with the record `nv`. -/
def replaceEntry (f : Fingerprint) (nv : Value) :
    List (Fingerprint × Value) → List (Fingerprint × Value)
  | [] => []
  | e :: rest => if e.1 = f then (f, nv) :: rest else e :: replaceEntry f nv rest

/-- Modelled from the spec: `set_first_unset` of the usage bitfield (§4.2):
the index of the first clear bit together with the bitfield with that bit
set, or `none` (`NoFreeBit`) when every bit is set. -/
def setFirstUnset : List Bool → Option (Nat × List Bool)
  | [] => none
  | b :: rest =>
    if b then
      match setFirstUnset rest with
      | none => none
      | some (i, rest2) => some (i + 1, b :: rest2)
    else some (0, true :: rest)

/-- Write the constant `c` at every position of `ps` in the list `l`. -/
def setConst (ps : List Nat) (c : α) (l : List α) : List α :=
  ps.foldl (fun acc p => acc.set p c) l

/-- The number of set bits of a bitfield. -/
def countTrue : List Bool → Nat
  | [] => 0
  | b :: rest => (if b then 1 else 0) + countTrue rest

/-- Modelled from the spec: the empty Registry `New` creates for a
non-existent path with `max_entries = n` (§4.4 Initialization): empty index,
`n` clear bits, `n` unused entry pages. -/
def Registry.newEmpty (n : Nat) : Registry :=
  ⟨[], List.replicate n false, List.replicate n unusedPage⟩

/-- Modelled from the spec: loading iterates the entry pages, verifies each
checksum and, for verified pages with `used_flag = 1`, decodes the record at
its slot and sets the corresponding bit; other pages leave their bit clear
(§4.1 "Loading").  `slot` is the 1-based slot of the first page. -/
def loadPages : List Page → Nat → List (Fingerprint × Value) × List Bool
  | [], _ => ([], [])
  | p :: rest, slot =>
    let r := loadPages rest (slot + 1)
    (if p.live then (p.body.fingerprint, p.body.reconstruct slot) :: r.1 else r.1,
     p.live :: r.2)

/-- Modelled from the spec: `New` on an existing slot file reconstructs the
index and the bitfield from the entry pages (§4.4 Initialization / Load). -/
def New (file : List Page) : Registry :=
  ⟨(loadPages file 1).1, (loadPages file 1).2, file⟩

/-- Modelled from the spec: the closed error taxonomy of `Update` (§7),
with the sentinel names of the test suite. -/
inductive UpdateError where
  | errTooMuchData
  | errInvalidSignature
  | errInvalidRevNum
  | errInvalidEntry
  | ErrNoFreeBit
deriving DecidableEq, Repr

/-- What an `Update` call returns: `existed` on success, or the first
admission rule that failed. -/
inductive UpdateResult where
  | ok (existed : Bool)
  | err (e : UpdateError)
deriving DecidableEq, Repr

/-- The in-memory record a successful `Update` stores: the caller's key,
the signed value's fields, the expiry and the slot; `invalid` is false. -/
def mkValue (pk : PublicKey) (rv : RegistryValue) (expiry slot : Nat) : Value :=
  ⟨pk, rv.tweak, expiry, rv.data, rv.revision, rv.signature, slot, false⟩

/-- Modelled from the spec: `Update(signed_value, public_key, expiry)`
(§4.4).  Admission rules are checked in order — size, signature, revision
monotonicity, entry not invalidated, capacity — and the first failure is
returned with the state unchanged.  On success the slot is assigned
(existing entries keep theirs, new entries get the first clear bit), the
page is written at the slot, and the index and bitfield are updated. -/
def Registry.Update (r : Registry) (rv : RegistryValue) (pk : PublicKey)
    (expiry : Nat) : Registry × UpdateResult :=
  if RegistryDataSize < rv.data.length then (r, .err .errTooMuchData)
  else if rv.verify pk = false then (r, .err .errInvalidSignature)
  else
    match lookupFp (valueMapKey pk rv.tweak) r.entries with
    | some existing =>
      if rv.revision ≤ existing.revision then (r, .err .errInvalidRevNum)
      else if existing.invalid then (r, .err .errInvalidEntry)
      else
        let v : Value := mkValue pk rv expiry existing.staticIndex
        (⟨replaceEntry v.mapKey v r.entries, r.staticUsage,
          r.file.set (existing.staticIndex - 1) (Page.forValue v)⟩, .ok true)
    | none =>
      match setFirstUnset r.staticUsage with
      | none => (r, .err .ErrNoFreeBit)
      | some (i, usage2) =>
        let v : Value := mkValue pk rv expiry (i + 1)
        (⟨r.entries ++ [(v.mapKey, v)], usage2,
          r.file.set i (Page.forValue v)⟩, .ok false)

/-- What a `Prune` call produces: the new state, the number of entries
removed, and the removed in-memory records as racing observers see them
after the call — marked `invalid` (§4.4 Prune step 1). -/
structure PruneResult where
  reg : Registry
  pruned : Nat
  invalidated : List Value
deriving DecidableEq, Repr

/-- Modelled from the spec: destruction of the entries selected by `sel`
(§3 Lifecycle, §4.4 Prune steps 2–4): the selected entries leave the index,
their bitfield bits are cleared, and their slot pages are rewritten as
unused. -/
def removeBy (sel : Fingerprint × Value → Bool) (r : Registry) : Registry :=
  let ps := (r.entries.filter sel).map fun e => e.2.staticIndex - 1
  ⟨r.entries.filter (fun e => !sel e), setConst ps false r.staticUsage,
   setConst ps unusedPage r.file⟩

/-- Modelled from the spec: `Prune(horizon_height)` removes every entry
whose expiry is at most the horizon; for each removed entry the in-memory
record is marked invalid, the bitfield bit is cleared, the index mapping is
removed and the slot page is rewritten as unused (§4.4 Prune). -/
def Registry.Prune (r : Registry) (h : Nat) : PruneResult :=
  let removed := r.entries.filter (fun e => decide (e.2.expiry ≤ h))
  { reg := removeBy (fun e => decide (e.2.expiry ≤ h)) r
    pruned := removed.length
    invalidated := removed.map (fun e => { e.2 with invalid := true }) }

/-- Modelled from the spec: explicit deletion of the entry of a fingerprint
(§3 Lifecycle "Destruction"): its bitfield bit is cleared, its index mapping
removed, and its slot page durably rewritten as unused. -/
def Registry.delete (r : Registry) (f : Fingerprint) : Registry :=
  removeBy (fun e => decide (e.1 = f)) r

/-- Modelled from the spec: `Get(public_key, tweak)` (§4.4): the live
entry's fields, or nothing when absent or invalid. -/
def Registry.Get (r : Registry) (pk : PublicKey) (tweak : Tweak) : Option Value :=
  match lookupFp (valueMapKey pk tweak) r.entries with
  | none => none
  | some v => if v.invalid then none else some v

/-! ### Helper lemmas about the list primitives -/

theorem getD_set_self {α : Type} (l : List α) (i : Nat) (c d : α)
    (h : i < l.length) : (l.set i c).getD i d = c := by
  induction l generalizing i with
  | nil => simp at h
  | cons a t ih =>
    cases i with
    | zero => rfl
    | succ j =>
      rw [List.set_cons_succ, List.getD_cons_succ]
      exact ih j (by simpa using h)

theorem getD_set_ne {α : Type} (l : List α) (i j : Nat) (c d : α)
    (h : i ≠ j) : (l.set i c).getD j d = l.getD j d := by
  induction l generalizing i j with
  | nil => rfl
  | cons a t ih =>
    cases i with
    | zero =>
      cases j with
      | zero => exact absurd rfl h
      | succ k => rfl
    | succ i2 =>
      cases j with
      | zero => rfl
      | succ k =>
        rw [List.set_cons_succ, List.getD_cons_succ, List.getD_cons_succ]
        exact ih i2 k (fun hh => h (by rw [hh]))

theorem getD_replicate_self {α : Type} (n i : Nat) (a : α) :
    (List.replicate n a).getD i a = a := by
  induction n generalizing i with
  | zero => rfl
  | succ m ih =>
    cases i with
    | zero => rfl
    | succ j => simp [List.replicate_succ, ih j]

theorem countTrue_set_true (l : List Bool) (i : Nat) (hi : i < l.length)
    (h : l.getD i false = false) :
    countTrue (l.set i true) = countTrue l + 1 := by
  induction l generalizing i with
  | nil => simp at hi
  | cons a t ih =>
    cases i with
    | zero =>
      rw [List.getD_cons_zero] at h
      simp [countTrue, h, Nat.add_comm]
    | succ j =>
      rw [List.getD_cons_succ] at h
      rw [List.set_cons_succ]
      simp only [countTrue]
      rw [ih j (by simpa using hi) h, Nat.add_assoc]

theorem countTrue_set_false (l : List Bool) (i : Nat) (hi : i < l.length)
    (h : l.getD i false = true) :
    countTrue (l.set i false) + 1 = countTrue l := by
  induction l generalizing i with
  | nil => simp at hi
  | cons a t ih =>
    cases i with
    | zero =>
      rw [List.getD_cons_zero] at h
      simp [countTrue, h, Nat.add_comm]
    | succ j =>
      rw [List.getD_cons_succ] at h
      rw [List.set_cons_succ]
      simp only [countTrue]
      rw [Nat.add_assoc, ih j (by simp at hi; omega) h]

theorem countTrue_replicate_false (n : Nat) :
    countTrue (List.replicate n false) = 0 := by
  induction n with
  | zero => rfl
  | succ m ih => simpa [List.replicate_succ, countTrue] using ih

theorem countTrue_le_length (l : List Bool) : countTrue l ≤ l.length := by
  induction l with
  | nil => exact Nat.le_refl 0
  | cons a t ih =>
    cases a <;> simp [countTrue] <;> omega

theorem all_true_of_countTrue_eq_length (l : List Bool)
    (h : countTrue l = l.length) : ∀ j, j < l.length → l.getD j false = true := by
  induction l with
  | nil => intro j hj; simp at hj
  | cons a t ih =>
    intro j hj
    have hle := countTrue_le_length t
    cases a with
    | false => simp [countTrue] at h; omega
    | true =>
      have h2 : countTrue t = t.length := by
        simp [countTrue] at h; omega
      cases j with
      | zero => rfl
      | succ k =>
        rw [List.getD_cons_succ]
        exact ih h2 k (by simp at hj; omega)

theorem setFirstUnset_none_of_all_true (l : List Bool)
    (h : ∀ j, j < l.length → l.getD j false = true) :
    setFirstUnset l = none := by
  induction l with
  | nil => rfl
  | cons a t ih =>
    have ha : a = true := h 0 (by simp)
    subst ha
    have ht : setFirstUnset t = none := by
      refine ih (fun j hj => ?_)
      have := h (j + 1) (by simpa using hj)
      simpa using this
    simp [setFirstUnset, ht]

theorem setFirstUnset_eq_some (l : List Bool) (i : Nat) (l2 : List Bool)
    (h : setFirstUnset l = some (i, l2)) :
    i < l.length ∧ l.getD i false = false ∧
      (∀ j, j < i → l.getD j false = true) ∧ l2 = l.set i true := by
  induction l generalizing i l2 with
  | nil => simp [setFirstUnset] at h
  | cons a t ih =>
    cases a with
    | false =>
      simp only [setFirstUnset, Bool.false_eq_true, if_false, Option.some.injEq,
        Prod.mk.injEq] at h
      obtain ⟨h1, h2⟩ := h
      subst h1
      refine ⟨Nat.succ_pos _, rfl, fun j hj => absurd hj (Nat.not_lt_zero j), ?_⟩
      rw [← h2]; rfl
    | true =>
      simp only [setFirstUnset, if_pos rfl] at h
      cases ht : setFirstUnset t with
      | none => rw [ht] at h; exact absurd h (by simp)
      | some p =>
        obtain ⟨i0, t2⟩ := p
        rw [ht] at h
        have h2 : some (i0 + 1, true :: t2) = some (i, l2) := h
        injection h2 with h3
        injection h3 with h4 h5
        subst h4
        subst h5
        obtain ⟨hlt, hget, hbefore, hset⟩ := ih i0 t2 ht
        refine ⟨by simp at hlt ⊢; omega, by simpa using hget, ?_, ?_⟩
        · intro j hj
          cases j with
          | zero => rfl
          | succ k =>
            rw [List.getD_cons_succ]
            exact hbefore k (by omega)
        · rw [List.set_cons_succ, hset]

theorem lookupFp_mem {f : Fingerprint} {v : Value}
    {es : List (Fingerprint × Value)} (h : lookupFp f es = some v) :
    (f, v) ∈ es := by
  induction es with
  | nil => simp [lookupFp] at h
  | cons e rest ih =>
    by_cases he : e.1 = f
    · obtain ⟨e1, e2⟩ := e
      simp only [lookupFp] at h
      rw [if_pos he] at h
      injection h with hv
      subst hv
      cases he
      exact List.mem_cons_self _ _
    · simp only [lookupFp, if_neg he] at h
      exact List.mem_cons_of_mem e (ih h)

theorem lookupFp_isSome_of_mem {f : Fingerprint} {v : Value}
    {es : List (Fingerprint × Value)} (h : (f, v) ∈ es) :
    ∃ w, lookupFp f es = some w := by
  induction es with
  | nil => simp at h
  | cons e rest ih =>
    by_cases he : e.1 = f
    · exact ⟨e.2, by simp [lookupFp, he]⟩
    · rcases List.mem_cons.mp h with h0 | h0
      · exact absurd (congrArg Prod.fst h0.symm) he
      · obtain ⟨w, hw⟩ := ih h0
        exact ⟨w, by simp [lookupFp, he, hw]⟩

theorem lookupFp_eq_none_of_not_mem {f : Fingerprint}
    {es : List (Fingerprint × Value)} (h : f ∉ es.map Prod.fst) :
    lookupFp f es = none := by
  induction es with
  | nil => rfl
  | cons e rest ih =>
    simp only [List.map_cons, List.mem_cons] at h
    push_neg at h
    have he : ¬ e.1 = f := fun hh => h.1 hh.symm
    simp [lookupFp, he, ih h.2]

theorem not_mem_map_fst_of_lookupFp_none {f : Fingerprint}
    {es : List (Fingerprint × Value)} (h : lookupFp f es = none) :
    f ∉ es.map Prod.fst := by
  induction es with
  | nil => simp
  | cons e rest ih =>
    by_cases he : e.1 = f
    · simp [lookupFp, he] at h
    · simp only [lookupFp, if_neg he] at h
      simp only [List.map_cons, List.mem_cons]
      push_neg
      exact ⟨fun hh => he hh.symm, ih h⟩

theorem lookupFp_of_mem_nodup {f : Fingerprint} {v : Value}
    {es : List (Fingerprint × Value)} (hnd : (es.map Prod.fst).Nodup)
    (hm : (f, v) ∈ es) : lookupFp f es = some v := by
  induction es with
  | nil => simp at hm
  | cons e rest ih =>
    simp only [List.map_cons, List.nodup_cons] at hnd
    rcases List.mem_cons.mp hm with h0 | h0
    · subst h0
      simp [lookupFp]
    · have he : e.1 ≠ f := by
        intro hh
        exact hnd.1 (hh ▸ List.mem_map_of_mem Prod.fst h0)
      simp [lookupFp, he, ih hnd.2 h0]

theorem lookupFp_append_left {f : Fingerprint} {v : Value}
    {es l : List (Fingerprint × Value)} (h : lookupFp f es = some v) :
    lookupFp f (es ++ l) = some v := by
  induction es with
  | nil => simp [lookupFp] at h
  | cons e rest ih =>
    by_cases he : e.1 = f
    · simp only [lookupFp, if_pos he] at h
      simp [lookupFp, he, h]
    · simp only [lookupFp, if_neg he] at h
      simpa [lookupFp, he] using ih h

theorem lookupFp_append_right {f : Fingerprint}
    {es l : List (Fingerprint × Value)} (h : lookupFp f es = none) :
    lookupFp f (es ++ l) = lookupFp f l := by
  induction es with
  | nil => rfl
  | cons e rest ih =>
    by_cases he : e.1 = f
    · simp [lookupFp, he] at h
    · simp only [lookupFp, if_neg he] at h
      simpa [lookupFp, he] using ih h

theorem lookupFp_filter_of_some {f : Fingerprint} {v : Value}
    {es : List (Fingerprint × Value)} (p : Fingerprint × Value → Bool)
    (hnd : (es.map Prod.fst).Nodup) (h : lookupFp f es = some v)
    (hp : p (f, v) = true) : lookupFp f (es.filter p) = some v := by
  refine lookupFp_of_mem_nodup ?_ ?_
  · exact ((List.filter_sublist es).map Prod.fst).nodup hnd
  · exact List.mem_filter.mpr ⟨lookupFp_mem h, hp⟩

theorem lookupFp_filter_none {f : Fingerprint}
    {es : List (Fingerprint × Value)} (p : Fingerprint × Value → Bool)
    (h : lookupFp f es = none) : lookupFp f (es.filter p) = none := by
  refine lookupFp_eq_none_of_not_mem (fun hm => ?_)
  obtain ⟨e, he, hfst⟩ := List.mem_map.mp hm
  have he2 : e ∈ es := (List.mem_filter.mp he).1
  have := not_mem_map_fst_of_lookupFp_none h
  exact this (hfst ▸ List.mem_map_of_mem Prod.fst he2)

theorem lookupFp_filter_dropped {f : Fingerprint} {v : Value}
    {es : List (Fingerprint × Value)} (p : Fingerprint × Value → Bool)
    (hnd : (es.map Prod.fst).Nodup) (h : lookupFp f es = some v)
    (hp : p (f, v) = false) : lookupFp f (es.filter p) = none := by
  refine lookupFp_eq_none_of_not_mem (fun hm => ?_)
  obtain ⟨e, he, hfst⟩ := List.mem_map.mp hm
  obtain ⟨he2, hpe⟩ := List.mem_filter.mp he
  obtain ⟨e1, e2⟩ := e
  cases hfst
  have : lookupFp e1 es = some e2 := lookupFp_of_mem_nodup hnd he2
  rw [h] at this
  injection this with hv
  rw [← hv] at hpe
  rw [hpe] at hp
  exact Bool.noConfusion hp

theorem map_fst_replaceEntry (f : Fingerprint) (nv : Value)
    (es : List (Fingerprint × Value)) :
    (replaceEntry f nv es).map Prod.fst = es.map Prod.fst := by
  induction es with
  | nil => rfl
  | cons e rest ih =>
    by_cases he : e.1 = f
    · simp [replaceEntry, he]
    · simp [replaceEntry, he, ih]

theorem length_replaceEntry (f : Fingerprint) (nv : Value)
    (es : List (Fingerprint × Value)) :
    (replaceEntry f nv es).length = es.length := by
  induction es with
  | nil => rfl
  | cons e rest ih =>
    by_cases he : e.1 = f
    · simp [replaceEntry, he]
    · simp [replaceEntry, he, ih]

theorem lookupFp_replaceEntry_self {f : Fingerprint} {v : Value}
    (nv : Value) {es : List (Fingerprint × Value)}
    (h : lookupFp f es = some v) :
    lookupFp f (replaceEntry f nv es) = some nv := by
  induction es with
  | nil => simp [lookupFp] at h
  | cons e rest ih =>
    by_cases he : e.1 = f
    · simp [replaceEntry, he, lookupFp]
    · simp only [lookupFp, if_neg he] at h
      simp [replaceEntry, he, lookupFp, ih h]

theorem lookupFp_replaceEntry_ne {g f : Fingerprint} (nv : Value)
    {es : List (Fingerprint × Value)} (h : g ≠ f) :
    lookupFp g (replaceEntry f nv es) = lookupFp g es := by
  induction es with
  | nil => rfl
  | cons e rest ih =>
    have h1 : ¬ f = g := fun hh => h hh.symm
    by_cases he : e.1 = f
    · have h2 : ¬ e.1 = g := fun hh => h1 (he.symm.trans hh)
      simp [replaceEntry, he, lookupFp, h1, h2]
    · by_cases hg : e.1 = g
      · simp [replaceEntry, he, lookupFp, hg, h1, h]
      · simp [replaceEntry, he, lookupFp, hg, h1, h, ih]

theorem mem_replaceEntry_nodup {f : Fingerprint} {v nv : Value}
    {es : List (Fingerprint × Value)} {e : Fingerprint × Value}
    (hnd : (es.map Prod.fst).Nodup) (hl : lookupFp f es = some v)
    (hm : e ∈ replaceEntry f nv es) : (e ∈ es ∧ e.1 ≠ f) ∨ e = (f, nv) := by
  induction es with
  | nil => simp [replaceEntry] at hm
  | cons e0 rest ih =>
    simp only [List.map_cons, List.nodup_cons] at hnd
    by_cases he : e0.1 = f
    · rw [replaceEntry, if_pos he] at hm
      rcases List.mem_cons.mp hm with h0 | h0
      · exact Or.inr h0
      · refine Or.inl ⟨List.mem_cons_of_mem e0 h0, fun hef => ?_⟩
        have : e.1 ∈ rest.map Prod.fst := List.mem_map_of_mem Prod.fst h0
        rw [hef, ← he] at this
        exact hnd.1 this
    · rw [replaceEntry, if_neg he] at hm
      rw [lookupFp, if_neg he] at hl
      rcases List.mem_cons.mp hm with h0 | h0
      · subst h0
        exact Or.inl ⟨List.mem_cons_self _ _, he⟩
      · rcases ih hnd.2 hl h0 with h1 | h1
        · exact Or.inl ⟨List.mem_cons_of_mem e0 h1.1, h1.2⟩
        · exact Or.inr h1

theorem map_slots_replaceEntry {f : Fingerprint} {v : Value} (nv : Value)
    {es : List (Fingerprint × Value)} (h : lookupFp f es = some v)
    (hs : nv.staticIndex = v.staticIndex) :
    (replaceEntry f nv es).map (fun e => e.2.staticIndex) =
      es.map (fun e => e.2.staticIndex) := by
  induction es with
  | nil => rfl
  | cons e rest ih =>
    by_cases he : e.1 = f
    · rw [lookupFp, if_pos he] at h
      injection h with hv
      simp [replaceEntry, he, hs, hv]
    · rw [lookupFp, if_neg he] at h
      simp [replaceEntry, he, ih h]

theorem length_setConst {α : Type} (ps : List Nat) (c : α) (l : List α) :
    (setConst ps c l).length = l.length := by
  induction ps generalizing l with
  | nil => rfl
  | cons p ps ih =>
    show (setConst ps c (l.set p c)).length = l.length
    rw [ih (l.set p c), List.length_set]

theorem getD_setConst_not_mem {α : Type} {ps : List Nat} {i : Nat}
    (c d : α) (l : List α) (h : i ∉ ps) :
    (setConst ps c l).getD i d = l.getD i d := by
  induction ps generalizing l with
  | nil => rfl
  | cons p ps ih =>
    simp only [List.mem_cons] at h
    push_neg at h
    show (setConst ps c (l.set p c)).getD i d = l.getD i d
    rw [ih (l.set p c) h.2, getD_set_ne l p i c d (fun hh => h.1 hh.symm)]

theorem getD_setConst_mem {α : Type} {ps : List Nat} {i : Nat}
    (c d : α) (l : List α) (h : i ∈ ps) (hi : i < l.length) :
    (setConst ps c l).getD i d = c := by
  induction ps generalizing l with
  | nil => simp at h
  | cons p ps ih =>
    show (setConst ps c (l.set p c)).getD i d = c
    by_cases hm : i ∈ ps
    · exact ih (l.set p c) hm (by rw [List.length_set]; exact hi)
    · have hip : i = p := by
        rcases List.mem_cons.mp h with h0 | h0
        · exact h0
        · exact absurd h0 hm
      subst hip
      rw [getD_setConst_not_mem c d (l.set i c) hm, getD_set_self l i c d hi]

theorem countTrue_setConst_false (ps : List Nat) (l : List Bool)
    (hnd : ps.Nodup) (hset : ∀ p ∈ ps, p < l.length ∧ l.getD p false = true) :
    countTrue (setConst ps false l) + ps.length = countTrue l := by
  induction ps generalizing l with
  | nil => rfl
  | cons p ps ih =>
    simp only [List.nodup_cons] at hnd
    obtain ⟨hp1, hp2⟩ := hset p (List.mem_cons_self _ _)
    show countTrue (setConst ps false (l.set p false)) + (ps.length + 1) = countTrue l
    have hrec := ih (l.set p false) hnd.2 (fun q hq => by
      obtain ⟨hq1, hq2⟩ := hset q (List.mem_cons_of_mem p hq)
      refine ⟨by rw [List.length_set]; exact hq1, ?_⟩
      rw [getD_set_ne l p q false false (fun hh => hnd.1 (hh ▸ hq))]
      exact hq2)
    have hc := countTrue_set_false l p hp1 hp2
    omega

theorem length_filter_add_length_filter_not {α : Type} (p : α → Bool)
    (l : List α) :
    (l.filter p).length + (l.filter fun a => !p a).length = l.length := by
  induction l with
  | nil => rfl
  | cons a t ih =>
    cases hp : p a <;> simp [List.filter_cons, hp] <;> omega

/-! ### Lemmas about persistence, loading and the Update branches -/

theorem reconstruct_persist (v : Value) (h : v.invalid = false) :
    v.persist.reconstruct v.staticIndex = v := by
  obtain ⟨k, t, e, d, rev, sg, si, iv⟩ := v
  simp only at h
  simp [Value.persist, EntryBody.reconstruct, h]

theorem fingerprint_persist (v : Value) : v.persist.fingerprint = v.mapKey := rfl

theorem live_forValue (v : Value) : (Page.forValue v).live = true := rfl

theorem mapKey_mkValue (pk : PublicKey) (rv : RegistryValue) (x s : Nat) :
    (mkValue pk rv x s).mapKey = valueMapKey pk rv.tweak := rfl

theorem loadPages_cons (p : Page) (rest : List Page) (s : Nat) :
    loadPages (p :: rest) s =
      (if p.live then
          (p.body.fingerprint, p.body.reconstruct s) :: (loadPages rest (s + 1)).1
        else (loadPages rest (s + 1)).1,
       p.live :: (loadPages rest (s + 1)).2) := rfl

theorem loadPages_snd (file : List Page) (s : Nat) :
    (loadPages file s).2 = file.map Page.live := by
  induction file generalizing s with
  | nil => rfl
  | cons p rest ih => rw [loadPages_cons, List.map_cons, ih (s + 1)]

theorem mem_loadPages (file : List Page) (s : Nat) (f : Fingerprint)
    (v : Value) :
    (f, v) ∈ (loadPages file s).1 ↔
      ∃ i, i < file.length ∧ (file.getD i unusedPage).live = true ∧
        f = (file.getD i unusedPage).body.fingerprint ∧
        v = (file.getD i unusedPage).body.reconstruct (s + i) := by
  induction file generalizing s with
  | nil => simp [loadPages]
  | cons p rest ih =>
    rw [loadPages_cons]
    by_cases hp : p.live = true
    · rw [if_pos hp]
      constructor
      · intro hm
        rcases List.mem_cons.mp hm with h0 | h0
        · obtain ⟨hf, hv⟩ := Prod.mk.injEq .. ▸ h0
          exact ⟨0, Nat.succ_pos _, hp, by simpa using hf, by simpa using hv⟩
        · obtain ⟨j, hj, hlive, hf, hv⟩ := (ih (s + 1)).mp h0
          refine ⟨j + 1, by simpa using hj, by simpa using hlive,
            by simpa using hf, ?_⟩
          rw [List.getD_cons_succ, show s + (j + 1) = s + 1 + j by omega]
          exact hv
      · rintro ⟨i, hi, hlive, hf, hv⟩
        cases i with
        | zero =>
          refine List.mem_cons.mpr (Or.inl ?_)
          rw [List.getD_cons_zero] at hf hv
          rw [hf, hv, Nat.add_zero]
        | succ j =>
          refine List.mem_cons.mpr (Or.inr ((ih (s + 1)).mpr ?_))
          rw [List.getD_cons_succ] at hlive hf hv
          refine ⟨j, by simpa using hi, hlive, hf, ?_⟩
          rw [show s + 1 + j = s + (j + 1) by omega]
          exact hv
    · rw [if_neg hp]
      constructor
      · intro hm
        obtain ⟨j, hj, hlive, hf, hv⟩ := (ih (s + 1)).mp hm
        refine ⟨j + 1, by simpa using hj, by simpa using hlive,
          by simpa using hf, ?_⟩
        rw [List.getD_cons_succ, show s + (j + 1) = s + 1 + j by omega]
        exact hv
      · rintro ⟨i, hi, hlive, hf, hv⟩
        cases i with
        | zero =>
          rw [List.getD_cons_zero] at hlive
          exact absurd hlive hp
        | succ j =>
          refine (ih (s + 1)).mpr ?_
          rw [List.getD_cons_succ] at hlive hf hv
          refine ⟨j, by simpa using hi, hlive, hf, ?_⟩
          rw [show s + 1 + j = s + (j + 1) by omega]
          exact hv

theorem Update_eq_tooMuchData (r : Registry) (rv : RegistryValue)
    (pk : PublicKey) (x : Nat) (h : RegistryDataSize < rv.data.length) :
    r.Update rv pk x = (r, .err .errTooMuchData) := by
  simp [Registry.Update, h]

theorem Update_eq_invalidSignature (r : Registry) (rv : RegistryValue)
    (pk : PublicKey) (x : Nat) (h1 : rv.data.length ≤ RegistryDataSize)
    (h2 : rv.verify pk = false) :
    r.Update rv pk x = (r, .err .errInvalidSignature) := by
  simp [Registry.Update, Nat.not_lt.mpr h1, h2]

theorem Update_eq_invalidRevNum {r : Registry} {rv : RegistryValue}
    {pk : PublicKey} (x : Nat) {v : Value}
    (h1 : rv.data.length ≤ RegistryDataSize) (h2 : rv.verify pk = true)
    (h3 : lookupFp (valueMapKey pk rv.tweak) r.entries = some v)
    (h4 : rv.revision ≤ v.revision) :
    r.Update rv pk x = (r, .err .errInvalidRevNum) := by
  simp [Registry.Update, Nat.not_lt.mpr h1, h2, h3, h4]

theorem Update_eq_invalidEntry {r : Registry} {rv : RegistryValue}
    {pk : PublicKey} (x : Nat) {v : Value}
    (h1 : rv.data.length ≤ RegistryDataSize) (h2 : rv.verify pk = true)
    (h3 : lookupFp (valueMapKey pk rv.tweak) r.entries = some v)
    (h4 : v.revision < rv.revision) (h5 : v.invalid = true) :
    r.Update rv pk x = (r, .err .errInvalidEntry) := by
  simp [Registry.Update, Nat.not_lt.mpr h1, h2, h3, Nat.not_le.mpr h4, h5]

theorem Update_eq_noFreeBit {r : Registry} {rv : RegistryValue}
    {pk : PublicKey} (x : Nat)
    (h1 : rv.data.length ≤ RegistryDataSize) (h2 : rv.verify pk = true)
    (h3 : lookupFp (valueMapKey pk rv.tweak) r.entries = none)
    (h6 : setFirstUnset r.staticUsage = none) :
    r.Update rv pk x = (r, .err .ErrNoFreeBit) := by
  simp [Registry.Update, Nat.not_lt.mpr h1, h2, h3, h6]

theorem Update_eq_ok_existing {r : Registry} {rv : RegistryValue}
    {pk : PublicKey} (x : Nat) {v : Value}
    (h1 : rv.data.length ≤ RegistryDataSize) (h2 : rv.verify pk = true)
    (h3 : lookupFp (valueMapKey pk rv.tweak) r.entries = some v)
    (h4 : v.revision < rv.revision) (h5 : v.invalid = false) :
    r.Update rv pk x =
      (⟨replaceEntry (valueMapKey pk rv.tweak)
          (mkValue pk rv x v.staticIndex) r.entries,
        r.staticUsage,
        r.file.set (v.staticIndex - 1)
          (Page.forValue (mkValue pk rv x v.staticIndex))⟩, .ok true) := by
  simp [Registry.Update, Nat.not_lt.mpr h1, h2, h3, Nat.not_le.mpr h4, h5,
    mapKey_mkValue]

theorem Update_eq_ok_new {r : Registry} {rv : RegistryValue}
    {pk : PublicKey} (x : Nat) {i : Nat} {u2 : List Bool}
    (h1 : rv.data.length ≤ RegistryDataSize) (h2 : rv.verify pk = true)
    (h3 : lookupFp (valueMapKey pk rv.tweak) r.entries = none)
    (h6 : setFirstUnset r.staticUsage = some (i, u2)) :
    r.Update rv pk x =
      (⟨r.entries ++ [(valueMapKey pk rv.tweak, mkValue pk rv x (i + 1))],
        u2, r.file.set i (Page.forValue (mkValue pk rv x (i + 1)))⟩,
       .ok false) := by
  simp [Registry.Update, Nat.not_lt.mpr h1, h2, h3, h6, mapKey_mkValue]

theorem Update_err_frames (r : Registry) (rv : RegistryValue)
    (pk : PublicKey) (x : Nat) (e : UpdateError)
    (h : (r.Update rv pk x).2 = .err e) : (r.Update rv pk x).1 = r := by
  by_cases h1 : RegistryDataSize < rv.data.length
  · rw [Update_eq_tooMuchData r rv pk x h1]
  · have h1b : rv.data.length ≤ RegistryDataSize := Nat.not_lt.mp h1
    cases h2 : rv.verify pk with
    | false => rw [Update_eq_invalidSignature r rv pk x h1b h2]
    | true =>
      cases h3 : lookupFp (valueMapKey pk rv.tweak) r.entries with
      | some v =>
        by_cases h4 : rv.revision ≤ v.revision
        · rw [Update_eq_invalidRevNum x h1b h2 h3 h4]
        · have h4b : v.revision < rv.revision := Nat.not_le.mp h4
          cases h5 : v.invalid with
          | true => rw [Update_eq_invalidEntry x h1b h2 h3 h4b h5]
          | false =>
            rw [Update_eq_ok_existing x h1b h2 h3 h4b h5] at h
            exact absurd h (by simp)
      | none =>
        cases h6 : setFirstUnset r.staticUsage with
        | none => rw [Update_eq_noFreeBit x h1b h2 h3 h6]
        | some p =>
          obtain ⟨i, u2⟩ := p
          rw [Update_eq_ok_new x h1b h2 h3 h6] at h
          exact absurd h (by simp)

/-! ### The state invariant and its preservation -/

/-- The bit of slot `i + 1` in the usage bitfield. -/
def bitAt (r : Registry) (i : Nat) : Bool := r.staticUsage.getD i false

/-- The entry page of slot `i + 1` in the slot file. -/
def pageAt (r : Registry) (i : Nat) : Page := r.file.getD i unusedPage

/-- What the invariant requires of one index binding: it is keyed by the
record's fingerprint, the record is valid, its slot lies in [1, n], and its
slot page holds exactly the record's persisted image (spec §3
Invariants 3 and 5). -/
structure EntryOk (n : Nat) (r : Registry) (e : Fingerprint × Value) : Prop where
  key : e.1 = e.2.mapKey
  valid : e.2.invalid = false
  slotPos : 1 ≤ e.2.staticIndex
  slotLe : e.2.staticIndex ≤ n
  page : pageAt r (e.2.staticIndex - 1) = Page.forValue e.2

/-- The Registry's quiescent-state invariant (spec §3 Invariants, §8
P1–P3): lengths match `max_entries`, a bit is set exactly when its page
holds a live entry, every binding satisfies `EntryOk`, every live page is
indexed under its fingerprint with the decoded record, fingerprints and
slots are unique, and the number of set bits equals the index size. -/
structure Inv (n : Nat) (r : Registry) : Prop where
  ulen : r.staticUsage.length = n
  flen : r.file.length = n
  bits : ∀ i, i < n → bitAt r i = (pageAt r i).live
  entriesOk : ∀ e ∈ r.entries, EntryOk n r e
  pages : ∀ i, i < n → (pageAt r i).live = true →
    lookupFp (pageAt r i).body.fingerprint r.entries =
      some ((pageAt r i).body.reconstruct (i + 1))
  keysNodup : (r.entries.map Prod.fst).Nodup
  slotsNodup : (r.entries.map fun e => e.2.staticIndex).Nodup
  count : countTrue r.staticUsage = r.entries.length

/-- Modelled from the spec: the states a Registry created with
`max_entries = n` can reach through its operations (§4.4): creation,
updates, prunes, deletions, and clean-shutdown reloads of its own file. -/
inductive Reachable (n : Nat) : Registry → Prop where
  | base : Reachable n (Registry.newEmpty n)
  | update {r : Registry} (rv : RegistryValue) (pk : PublicKey) (x : Nat) :
      Reachable n r → Reachable n (r.Update rv pk x).1
  | prune {r : Registry} (h : Nat) : Reachable n r → Reachable n (r.Prune h).reg
  | del {r : Registry} (f : Fingerprint) : Reachable n r → Reachable n (r.delete f)
  | reload {r : Registry} : Reachable n r → Reachable n (New r.file)

theorem entryOk_bit {n : Nat} {r : Registry} {e : Fingerprint × Value}
    (hInv : Inv n r) (h : EntryOk n r e) :
    bitAt r (e.2.staticIndex - 1) = true := by
  have hlt : e.2.staticIndex - 1 < n := by
    have := h.slotPos; have := h.slotLe; omega
  rw [hInv.bits _ hlt, h.page]
  rfl

theorem entry_eq_of_slot_eq {n : Nat} {r : Registry}
    {e1 e2 : Fingerprint × Value} (hInv : Inv n r)
    (h1 : e1 ∈ r.entries) (h2 : e2 ∈ r.entries)
    (h : e1.2.staticIndex = e2.2.staticIndex) : e1 = e2 :=
  List.inj_on_of_nodup_map hInv.slotsNodup h1 h2 h

theorem inv_newEmpty (n : Nat) : Inv n (Registry.newEmpty n) where
  ulen := List.length_replicate n false
  flen := List.length_replicate n unusedPage
  bits := fun i _ => by
    show (List.replicate n false).getD i false =
      ((List.replicate n unusedPage).getD i unusedPage).live
    rw [getD_replicate_self, getD_replicate_self]
    rfl
  entriesOk := fun e he => absurd he (List.not_mem_nil e)
  pages := fun i _ hl => by
    exfalso
    have : pageAt (Registry.newEmpty n) i = unusedPage := by
      show (List.replicate n unusedPage).getD i unusedPage = unusedPage
      exact getD_replicate_self n i unusedPage
    rw [this] at hl
    exact Bool.noConfusion hl
  keysNodup := List.nodup_nil
  slotsNodup := List.nodup_nil
  count := countTrue_replicate_false n

theorem inv_update_existing {n : Nat} {r : Registry} {rv : RegistryValue}
    {pk : PublicKey} {v : Value} (x : Nat) (hInv : Inv n r)
    (h3 : lookupFp (valueMapKey pk rv.tweak) r.entries = some v)
    (h5 : v.invalid = false) :
    Inv n ⟨replaceEntry (valueMapKey pk rv.tweak)
             (mkValue pk rv x v.staticIndex) r.entries,
           r.staticUsage,
           r.file.set (v.staticIndex - 1)
             (Page.forValue (mkValue pk rv x v.staticIndex))⟩ := by
  have hmem : (valueMapKey pk rv.tweak, v) ∈ r.entries := lookupFp_mem h3
  have ho := hInv.entriesOk _ hmem
  have hslot1 : 1 ≤ v.staticIndex := ho.slotPos
  have hslotn : v.staticIndex ≤ n := ho.slotLe
  have hjf : v.staticIndex - 1 < r.file.length := by rw [hInv.flen]; omega
  refine ⟨hInv.ulen, ?_, ?_, ?_, ?_, ?_, ?_, ?_⟩
  · show (r.file.set _ _).length = n
    rw [List.length_set, hInv.flen]
  · intro i hi
    show r.staticUsage.getD i false = ((r.file.set _ _).getD i unusedPage).live
    by_cases hij : i = v.staticIndex - 1
    · subst hij
      rw [getD_set_self _ _ _ _ hjf]
      exact entryOk_bit hInv ho
    · rw [getD_set_ne _ _ _ _ _ (fun hh => hij hh.symm)]
      exact hInv.bits i hi
  · intro e he
    rcases mem_replaceEntry_nodup hInv.keysNodup h3 he with ⟨hmeme, hne⟩ | heq
    · have hoe := hInv.entriesOk e hmeme
      have hslotne : e.2.staticIndex - 1 ≠ v.staticIndex - 1 := by
        intro hh
        have heq2 : e.2.staticIndex = v.staticIndex := by
          have := hoe.slotPos; omega
        have := entry_eq_of_slot_eq hInv hmeme hmem heq2
        rw [this] at hne
        exact hne rfl
      refine ⟨hoe.key, hoe.valid, hoe.slotPos, hoe.slotLe, ?_⟩
      show (r.file.set _ _).getD _ _ = _
      rw [getD_set_ne _ _ _ _ _ (fun hh => hslotne hh.symm)]
      exact hoe.page
    · subst heq
      refine ⟨(mapKey_mkValue pk rv x v.staticIndex).symm, rfl, hslot1, hslotn, ?_⟩
      show (r.file.set (v.staticIndex - 1)
          (Page.forValue (mkValue pk rv x v.staticIndex))).getD
          (v.staticIndex - 1) unusedPage =
        Page.forValue (mkValue pk rv x v.staticIndex)
      exact getD_set_self _ _ _ _ hjf
  · intro i hi hlive
    by_cases hij : i = v.staticIndex - 1
    · subst hij
      have hpg : pageAt ⟨replaceEntry (valueMapKey pk rv.tweak)
            (mkValue pk rv x v.staticIndex) r.entries, r.staticUsage,
            r.file.set (v.staticIndex - 1)
              (Page.forValue (mkValue pk rv x v.staticIndex))⟩
            (v.staticIndex - 1) =
          Page.forValue (mkValue pk rv x v.staticIndex) := by
        show (r.file.set _ _).getD _ _ = _
        rw [getD_set_self _ _ _ _ hjf]
      rw [hpg, show v.staticIndex - 1 + 1 = v.staticIndex by omega,
        show (Page.forValue (mkValue pk rv x v.staticIndex)).body.reconstruct
            v.staticIndex = mkValue pk rv x v.staticIndex from
          reconstruct_persist (mkValue pk rv x v.staticIndex) rfl]
      exact lookupFp_replaceEntry_self (mkValue pk rv x v.staticIndex) h3
    · have hpg : pageAt ⟨replaceEntry (valueMapKey pk rv.tweak)
            (mkValue pk rv x v.staticIndex) r.entries, r.staticUsage,
            r.file.set (v.staticIndex - 1)
              (Page.forValue (mkValue pk rv x v.staticIndex))⟩ i = pageAt r i := by
        show (r.file.set _ _).getD _ _ = _
        rw [getD_set_ne _ _ _ _ _ (fun hh => hij hh.symm)]
        rfl
      rw [hpg] at hlive ⊢
      have hold := hInv.pages i hi hlive
      have hfp : (pageAt r i).body.fingerprint ≠ valueMapKey pk rv.tweak := by
        intro hh
        rw [hh, h3] at hold
        injection hold with hv
        have hsv : v.staticIndex = i + 1 := by rw [hv]; rfl
        omega
      rw [lookupFp_replaceEntry_ne _ hfp]
      exact hold
  · show ((replaceEntry _ _ r.entries).map Prod.fst).Nodup
    rw [map_fst_replaceEntry]
    exact hInv.keysNodup
  · show ((replaceEntry _ _ r.entries).map fun e => e.2.staticIndex).Nodup
    rw [map_slots_replaceEntry (mkValue pk rv x v.staticIndex) h3 rfl]
    exact hInv.slotsNodup
  · show countTrue r.staticUsage = (replaceEntry _ _ r.entries).length
    rw [length_replaceEntry]
    exact hInv.count

theorem inv_update_new {n : Nat} {r : Registry} {rv : RegistryValue}
    {pk : PublicKey} {i : Nat} {u2 : List Bool} (x : Nat) (hInv : Inv n r)
    (h3 : lookupFp (valueMapKey pk rv.tweak) r.entries = none)
    (h6 : setFirstUnset r.staticUsage = some (i, u2)) :
    Inv n ⟨r.entries ++ [(valueMapKey pk rv.tweak, mkValue pk rv x (i + 1))],
           u2, r.file.set i (Page.forValue (mkValue pk rv x (i + 1)))⟩ := by
  obtain ⟨hilt, hbit, _, hu2⟩ := setFirstUnset_eq_some r.staticUsage i u2 h6
  have hin : i < n := hInv.ulen ▸ hilt
  have hif : i < r.file.length := by rw [hInv.flen]; omega
  have nofree : ∀ e ∈ r.entries, e.2.staticIndex ≠ i + 1 := by
    intro e he hslot
    have hb := entryOk_bit hInv (hInv.entriesOk e he)
    rw [hslot] at hb
    simp only [Nat.add_sub_cancel] at hb
    rw [bitAt] at hb
    rw [hb] at hbit
    exact Bool.noConfusion hbit
  subst hu2
  refine ⟨?_, ?_, ?_, ?_, ?_, ?_, ?_, ?_⟩
  · show (r.staticUsage.set i true).length = n
    rw [List.length_set, hInv.ulen]
  · show (r.file.set _ _).length = n
    rw [List.length_set, hInv.flen]
  · intro i0 hi0
    show (r.staticUsage.set i true).getD i0 false =
      ((r.file.set _ _).getD i0 unusedPage).live
    by_cases hij : i0 = i
    · subst hij
      rw [getD_set_self _ _ _ _ hilt, getD_set_self _ _ _ _ hif]
      rfl
    · rw [getD_set_ne _ _ _ _ _ (fun hh => hij hh.symm),
        getD_set_ne _ _ _ _ _ (fun hh => hij hh.symm)]
      exact hInv.bits i0 hi0
  · intro e he
    rcases List.mem_append.mp he with hm | hm
    · have hoe := hInv.entriesOk e hm
      have hne : e.2.staticIndex - 1 ≠ i := by
        have h1 := hoe.slotPos
        have h2 := nofree e hm
        omega
      refine ⟨hoe.key, hoe.valid, hoe.slotPos, hoe.slotLe, ?_⟩
      show (r.file.set _ _).getD _ _ = _
      rw [getD_set_ne _ _ _ _ _ (fun hh => hne hh.symm)]
      exact hoe.page
    · have heq : e = (valueMapKey pk rv.tweak, mkValue pk rv x (i + 1)) := by
        simpa using hm
      subst heq
      refine ⟨rfl, rfl, Nat.succ_pos i, ?_, ?_⟩
      · show i + 1 ≤ n
        omega
      show (r.file.set i (Page.forValue (mkValue pk rv x (i + 1)))).getD
          ((i + 1) - 1) unusedPage = Page.forValue (mkValue pk rv x (i + 1))
      simp only [Nat.add_sub_cancel]
      exact getD_set_self _ _ _ _ hif
  · intro i0 hi0 hlive
    by_cases hij : i0 = i
    · subst hij
      have hpg : (r.file.set i0 (Page.forValue (mkValue pk rv x (i0 + 1)))).getD
          i0 unusedPage = Page.forValue (mkValue pk rv x (i0 + 1)) :=
        getD_set_self _ _ _ _ hif
      show lookupFp ((r.file.set _ _).getD i0 unusedPage).body.fingerprint
          (r.entries ++ [(valueMapKey pk rv.tweak, mkValue pk rv x (i0 + 1))]) =
        some (((r.file.set _ _).getD i0 unusedPage).body.reconstruct (i0 + 1))
      rw [hpg]
      rw [show (Page.forValue (mkValue pk rv x (i0 + 1))).body.reconstruct (i0 + 1) =
          mkValue pk rv x (i0 + 1) from
        reconstruct_persist (mkValue pk rv x (i0 + 1)) rfl]
      show lookupFp (valueMapKey pk rv.tweak)
          (r.entries ++ [(valueMapKey pk rv.tweak, mkValue pk rv x (i0 + 1))]) =
        some (mkValue pk rv x (i0 + 1))
      rw [lookupFp_append_right h3, lookupFp, if_pos rfl]
    · have hpg : pageAt ⟨r.entries ++ [(valueMapKey pk rv.tweak,
          mkValue pk rv x (i + 1))], r.staticUsage.set i true,
          r.file.set i (Page.forValue (mkValue pk rv x (i + 1)))⟩ i0 =
          pageAt r i0 := by
        show (r.file.set _ _).getD _ _ = _
        rw [getD_set_ne _ _ _ _ _ (fun hh => hij hh.symm)]
        rfl
      rw [hpg] at hlive ⊢
      exact lookupFp_append_left (hInv.pages i0 hi0 hlive)
  · show ((r.entries ++ _).map Prod.fst).Nodup
    rw [List.map_append]
    rw [List.nodup_append]
    refine ⟨hInv.keysNodup, by simp, ?_⟩
    intro a ha hb
    simp only [List.map_cons, List.map_nil, List.mem_cons, List.not_mem_nil,
      or_false] at hb
    subst hb
    exact not_mem_map_fst_of_lookupFp_none h3 ha
  · show ((r.entries ++ _).map fun e => e.2.staticIndex).Nodup
    rw [List.map_append, List.nodup_append]
    refine ⟨hInv.slotsNodup, by simp, ?_⟩
    intro a ha hb
    simp only [List.map_cons, List.map_nil, List.mem_cons, List.not_mem_nil,
      or_false] at hb
    obtain ⟨e, hme, hslot⟩ := List.mem_map.mp ha
    rw [hb] at hslot
    exact nofree e hme hslot
  · show countTrue (r.staticUsage.set i true) = (r.entries ++ _).length
    rw [countTrue_set_true r.staticUsage i hilt hbit, List.length_append,
      hInv.count]
    rfl

theorem inv_Update {n : Nat} {r : Registry} (rv : RegistryValue)
    (pk : PublicKey) (x : Nat) (hInv : Inv n r) :
    Inv n (r.Update rv pk x).1 := by
  by_cases h1 : RegistryDataSize < rv.data.length
  · rw [Update_eq_tooMuchData r rv pk x h1]
    exact hInv
  · have h1b : rv.data.length ≤ RegistryDataSize := Nat.not_lt.mp h1
    cases h2 : rv.verify pk with
    | false =>
      rw [Update_eq_invalidSignature r rv pk x h1b h2]
      exact hInv
    | true =>
      cases h3 : lookupFp (valueMapKey pk rv.tweak) r.entries with
      | some v =>
        by_cases h4 : rv.revision ≤ v.revision
        · rw [Update_eq_invalidRevNum x h1b h2 h3 h4]
          exact hInv
        · have h4b : v.revision < rv.revision := Nat.not_le.mp h4
          cases h5 : v.invalid with
          | true =>
            rw [Update_eq_invalidEntry x h1b h2 h3 h4b h5]
            exact hInv
          | false =>
            rw [Update_eq_ok_existing x h1b h2 h3 h4b h5]
            exact inv_update_existing x hInv h3 h5
      | none =>
        cases h6 : setFirstUnset r.staticUsage with
        | none =>
          rw [Update_eq_noFreeBit x h1b h2 h3 h6]
          exact hInv
        | some p =>
          obtain ⟨i, u2⟩ := p
          rw [Update_eq_ok_new x h1b h2 h3 h6]
          exact inv_update_new x hInv h3 h6

theorem inv_removeBy {n : Nat} {r : Registry}
    (sel : Fingerprint × Value → Bool) (hInv : Inv n r) :
    Inv n (removeBy sel r) := by
  have entriesNodup : r.entries.Nodup := List.Nodup.of_map Prod.fst hInv.keysNodup
  set removed := r.entries.filter sel with hrem
  set ps := removed.map (fun e => e.2.staticIndex - 1) with hps
  have hps_spec : ∀ p ∈ ps, ∃ e, e ∈ r.entries ∧ sel e = true ∧
      e.2.staticIndex - 1 = p := by
    intro p hp
    obtain ⟨e, he, hpe⟩ := List.mem_map.mp hp
    obtain ⟨he1, he2⟩ := List.mem_filter.mp he
    exact ⟨e, he1, he2, hpe⟩
  have hps_range : ∀ p ∈ ps, p < n ∧ r.staticUsage.getD p false = true := by
    intro p hp
    obtain ⟨e, he, _, hpe⟩ := hps_spec p hp
    have hoe := hInv.entriesOk e he
    have hb := entryOk_bit hInv hoe
    refine ⟨?_, ?_⟩
    · have := hoe.slotPos
      have := hoe.slotLe
      omega
    · rw [← hpe]
      exact hb
  have hps_nodup : ps.Nodup := by
    refine List.Nodup.map_on ?_
      (List.Nodup.sublist (List.filter_sublist r.entries) entriesNodup)
    intro e1 h1 e2 h2 hee
    have h1m := (List.mem_filter.mp h1).1
    have h2m := (List.mem_filter.mp h2).1
    have hoe1 := hInv.entriesOk e1 h1m
    have hoe2 := hInv.entriesOk e2 h2m
    have hslots : e1.2.staticIndex = e2.2.staticIndex := by
      have := hoe1.slotPos
      have := hoe2.slotPos
      omega
    exact entry_eq_of_slot_eq hInv h1m h2m hslots
  have kept_not_ps : ∀ e ∈ r.entries, (!sel e) = true →
      e.2.staticIndex - 1 ∉ ps := by
    intro e he hk hp
    obtain ⟨e2, he2, hsel2, hpe2⟩ := hps_spec _ hp
    have heq : e.2.staticIndex = e2.2.staticIndex := by
      have := (hInv.entriesOk e he).slotPos
      have := (hInv.entriesOk e2 he2).slotPos
      omega
    have hee := entry_eq_of_slot_eq hInv he he2 heq
    rw [hee, hsel2] at hk
    exact Bool.noConfusion hk
  refine ⟨?_, ?_, ?_, ?_, ?_, ?_, ?_, ?_⟩
  · show (setConst ps false r.staticUsage).length = n
    rw [length_setConst, hInv.ulen]
  · show (setConst ps unusedPage r.file).length = n
    rw [length_setConst, hInv.flen]
  · intro i hi
    show (setConst ps false r.staticUsage).getD i false =
      ((setConst ps unusedPage r.file).getD i unusedPage).live
    by_cases hip : i ∈ ps
    · rw [getD_setConst_mem _ _ _ hip (by rw [hInv.ulen]; exact hi),
        getD_setConst_mem _ _ _ hip (by rw [hInv.flen]; exact hi)]
      rfl
    · rw [getD_setConst_not_mem _ _ _ hip, getD_setConst_not_mem _ _ _ hip]
      exact hInv.bits i hi
  · intro e he
    have hem := List.mem_filter.mp he
    have hoe := hInv.entriesOk e hem.1
    refine ⟨hoe.key, hoe.valid, hoe.slotPos, hoe.slotLe, ?_⟩
    show (setConst ps unusedPage r.file).getD (e.2.staticIndex - 1) unusedPage = _
    rw [getD_setConst_not_mem _ _ _ (kept_not_ps e hem.1 hem.2)]
    exact hoe.page
  · intro i hi hlive
    have hip : i ∉ ps := by
      intro hp
      have hun : pageAt (removeBy sel r) i = unusedPage := by
        show (setConst ps unusedPage r.file).getD i unusedPage = unusedPage
        exact getD_setConst_mem _ _ _ hp (by rw [hInv.flen]; exact hi)
      rw [hun] at hlive
      exact absurd hlive (by decide)
    have hpg : pageAt (removeBy sel r) i = pageAt r i := by
      show (setConst ps unusedPage r.file).getD i unusedPage =
        r.file.getD i unusedPage
      exact getD_setConst_not_mem _ _ _ hip
    rw [hpg] at hlive ⊢
    have hold := hInv.pages i hi hlive
    have hsel : sel ((pageAt r i).body.fingerprint,
        (pageAt r i).body.reconstruct (i + 1)) = false := by
      cases hs : sel ((pageAt r i).body.fingerprint,
          (pageAt r i).body.reconstruct (i + 1)) with
      | false => rfl
      | true =>
        exfalso
        have hmem : ((pageAt r i).body.fingerprint,
            (pageAt r i).body.reconstruct (i + 1)) ∈ r.entries :=
          lookupFp_mem hold
        have hmem2 : ((pageAt r i).body.fingerprint,
            (pageAt r i).body.reconstruct (i + 1)) ∈ removed :=
          List.mem_filter.mpr ⟨hmem, hs⟩
        have hcontra : ((pageAt r i).body.reconstruct (i + 1)).staticIndex - 1 ∈ ps :=
          List.mem_map.mpr ⟨_, hmem2, rfl⟩
        have hidx : ((pageAt r i).body.reconstruct (i + 1)).staticIndex - 1 = i := rfl
        rw [hidx] at hcontra
        exact hip hcontra
    show lookupFp _ (List.filter (fun e => !sel e) r.entries) = _
    exact lookupFp_filter_of_some _ hInv.keysNodup hold (by rw [hsel]; rfl)
  · show ((List.filter _ r.entries).map Prod.fst).Nodup
    exact List.Nodup.sublist
      (List.Sublist.map _ (List.filter_sublist _)) hInv.keysNodup
  · show ((List.filter _ r.entries).map fun e => e.2.staticIndex).Nodup
    exact List.Nodup.sublist
      (List.Sublist.map _ (List.filter_sublist _)) hInv.slotsNodup
  · show countTrue (setConst ps false r.staticUsage) =
      (List.filter (fun e => !sel e) r.entries).length
    have hc := countTrue_setConst_false ps r.staticUsage hps_nodup (fun p hp => by
      obtain ⟨ha, hb⟩ := hps_range p hp
      exact ⟨by rw [hInv.ulen]; exact ha, hb⟩)
    have hsplit := length_filter_add_length_filter_not sel r.entries
    rw [← hrem] at hsplit
    have hlen : ps.length = removed.length := List.length_map _ _
    have hcount := hInv.count
    omega

theorem inv_Prune {n : Nat} {r : Registry} (h : Nat) (hInv : Inv n r) :
    Inv n (r.Prune h).reg :=
  inv_removeBy _ hInv

theorem inv_delete {n : Nat} {r : Registry} (f : Fingerprint) (hInv : Inv n r) :
    Inv n (r.delete f) :=
  inv_removeBy _ hInv

/-! ### Reload fidelity -/

theorem getD_map_live (l : List Page) (i : Nat) :
    (l.map Page.live).getD i false = (l.getD i unusedPage).live := by
  induction l generalizing i with
  | nil => rfl
  | cons p rest ih =>
    cases i with
    | zero => rfl
    | succ j => simpa using ih j

theorem reload_usage {n : Nat} {r : Registry} (hInv : Inv n r) :
    (New r.file).staticUsage = r.staticUsage := by
  show (loadPages r.file 1).2 = r.staticUsage
  rw [loadPages_snd]
  refine List.ext_get ?_ ?_
  · rw [List.length_map, hInv.flen, hInv.ulen]
  · intro i h1 h2
    have hi_n : i < n := by rw [List.length_map, hInv.flen] at h1; exact h1
    calc (r.file.map Page.live).get ⟨i, h1⟩
        = (r.file.map Page.live).getD i false := (List.getD_eq_get _ _ h1).symm
      _ = (r.file.getD i unusedPage).live := getD_map_live r.file i
      _ = r.staticUsage.getD i false := (hInv.bits i hi_n).symm
      _ = r.staticUsage.get ⟨i, h2⟩ := List.getD_eq_get _ _ h2

theorem reload_lookup {n : Nat} {r : Registry} (hInv : Inv n r)
    (f : Fingerprint) :
    lookupFp f (New r.file).entries = lookupFp f r.entries := by
  show lookupFp f (loadPages r.file 1).1 = lookupFp f r.entries
  cases hl : lookupFp f r.entries with
  | some v =>
    have hmem : (f, v) ∈ r.entries := lookupFp_mem hl
    have ho := hInv.entriesOk _ hmem
    have hkey : f = v.mapKey := ho.key
    have hsp : 1 ≤ v.staticIndex := ho.slotPos
    have hsl : v.staticIndex ≤ n := ho.slotLe
    have hmem_loaded : (f, v) ∈ (loadPages r.file 1).1 := by
      rw [mem_loadPages]
      refine ⟨v.staticIndex - 1, ?_, ?_, ?_, ?_⟩
      · rw [hInv.flen]
        omega
      · rw [show r.file.getD (v.staticIndex - 1) unusedPage = Page.forValue v
          from ho.page]
        rfl
      · rw [show r.file.getD (v.staticIndex - 1) unusedPage = Page.forValue v
          from ho.page]
        exact hkey.trans (fingerprint_persist v).symm
      · rw [show r.file.getD (v.staticIndex - 1) unusedPage = Page.forValue v
          from ho.page]
        rw [show 1 + (v.staticIndex - 1) = v.staticIndex by omega]
        exact (reconstruct_persist v ho.valid).symm
    obtain ⟨w, hw⟩ := lookupFp_isSome_of_mem hmem_loaded
    rw [hw]
    have hmemw : (f, w) ∈ (loadPages r.file 1).1 := lookupFp_mem hw
    rw [mem_loadPages] at hmemw
    obtain ⟨i, hi, hlive, hf, hv⟩ := hmemw
    have hi_n : i < n := hInv.flen ▸ hi
    have hold := hInv.pages i hi_n hlive
    simp only [pageAt] at hold
    rw [← hf, hl] at hold
    injection hold with hveq
    rw [hv, show 1 + i = i + 1 by omega, ← hveq]
  | none =>
    cases hw : lookupFp f (loadPages r.file 1).1 with
    | none => rfl
    | some w =>
      exfalso
      have hmemw := lookupFp_mem hw
      rw [mem_loadPages] at hmemw
      obtain ⟨i, hi, hlive, hf, hv⟩ := hmemw
      have hi_n : i < n := hInv.flen ▸ hi
      have hold := hInv.pages i hi_n hlive
      simp only [pageAt] at hold
      rw [← hf, hl] at hold
      exact Option.noConfusion hold

theorem loaded_invalid_false {file : List Page} {f : Fingerprint} {v : Value}
    (h : lookupFp f (New file).entries = some v) : v.invalid = false := by
  have hmem : (f, v) ∈ (loadPages file 1).1 := lookupFp_mem h
  rw [mem_loadPages] at hmem
  obtain ⟨i, _, _, _, hv⟩ := hmem
  rw [hv]
  rfl

theorem persist_reconstruct (b : EntryBody) (s : Nat) :
    (b.reconstruct s).persist = b := rfl

theorem page_eq_of_live {p : Page} (h : p.live = true) :
    p = ⟨true, true, p.body⟩ := by
  obtain ⟨ok, us, bd⟩ := p
  cases ok with
  | false => exact absurd h (by simp [Page.live])
  | true =>
    cases us with
    | false => exact absurd h (by simp [Page.live])
    | true => rfl

theorem loadPages_le_slot {file : List Page} {s : Nat} {f : Fingerprint}
    {v : Value} (h : (f, v) ∈ (loadPages file s).1) : s ≤ v.staticIndex := by
  obtain ⟨i, _, _, _, hv⟩ := (mem_loadPages file s f v).mp h
  rw [hv]
  show s ≤ s + i
  omega

theorem loadPages_slots_nodup (file : List Page) (s : Nat) :
    ((loadPages file s).1.map fun e => e.2.staticIndex).Nodup := by
  induction file generalizing s with
  | nil => exact List.nodup_nil
  | cons p rest ih =>
    show (((loadPages (p :: rest) s).1).map fun e => e.2.staticIndex).Nodup
    rw [loadPages_cons]
    by_cases hp : p.live = true
    · rw [if_pos hp]
      simp only [List.map_cons, List.nodup_cons]
      refine ⟨?_, ih (s + 1)⟩
      intro hmem
      obtain ⟨e, hme, hslot⟩ := List.mem_map.mp hmem
      obtain ⟨e1, e2⟩ := e
      have hle : s + 1 ≤ e2.staticIndex := loadPages_le_slot hme
      have hs : e2.staticIndex = s := hslot
      omega
    · rw [if_neg hp]
      exact ih (s + 1)

theorem loadPages_length (file : List Page) (s : Nat) :
    (loadPages file s).1.length = countTrue (loadPages file s).2 := by
  induction file generalizing s with
  | nil => rfl
  | cons p rest ih =>
    rw [loadPages_cons]
    cases hp : p.live with
    | true => simp [countTrue, ih (s + 1), Nat.add_comm]
    | false => simp [countTrue, ih (s + 1)]

theorem inv_reload {n : Nat} {r : Registry} (hInv : Inv n r) :
    Inv n (New r.file) := by
  refine ⟨?_, hInv.flen, ?_, ?_, ?_, ?_, loadPages_slots_nodup r.file 1, ?_⟩
  · rw [reload_usage hInv]
    exact hInv.ulen
  · intro i hi
    show ((New r.file).staticUsage).getD i false = _
    rw [reload_usage hInv]
    exact hInv.bits i hi
  · intro e he
    obtain ⟨f, v⟩ := e
    obtain ⟨i, hi, hlive, hf, hv⟩ := (mem_loadPages r.file 1 f v).mp he
    have hin : i < n := hInv.flen ▸ hi
    refine ⟨?_, ?_, ?_, ?_, ?_⟩
    · rw [hf, hv]
      rfl
    · rw [hv]
      rfl
    · show 1 ≤ (f, v).2.staticIndex
      rw [hv]
      show 1 ≤ 1 + i
      omega
    · show (f, v).2.staticIndex ≤ n
      rw [hv]
      show 1 + i ≤ n
      omega
    · show r.file.getD ((f, v).2.staticIndex - 1) unusedPage =
        Page.forValue (f, v).2
      rw [hv]
      show r.file.getD (1 + i - 1) unusedPage =
        Page.forValue ((r.file.getD i unusedPage).body.reconstruct (1 + i))
      rw [show 1 + i - 1 = i by omega]
      calc r.file.getD i unusedPage
          = ⟨true, true, (r.file.getD i unusedPage).body⟩ :=
            page_eq_of_live hlive
        _ = Page.forValue ((r.file.getD i unusedPage).body.reconstruct (1 + i)) :=
            rfl
  · intro i hi hlive
    have hold := hInv.pages i hi hlive
    show lookupFp (pageAt r i).body.fingerprint (New r.file).entries =
      some ((pageAt r i).body.reconstruct (i + 1))
    rw [reload_lookup hInv]
    exact hold
  · have hslots := loadPages_slots_nodup r.file 1
    have hbase : (loadPages r.file 1).1.Nodup := List.Nodup.of_map _ hslots
    refine List.Nodup.map_on ?_ hbase
    intro e1 h1 e2 h2 hkey
    obtain ⟨f1, v1⟩ := e1
    obtain ⟨f2, v2⟩ := e2
    have hkey2 : f1 = f2 := hkey
    subst hkey2
    obtain ⟨i1, hi1, hl1, hf1, hv1⟩ := (mem_loadPages r.file 1 f1 v1).mp h1
    obtain ⟨i2, hi2, hl2, hf2, hv2⟩ := (mem_loadPages r.file 1 f1 v2).mp h2
    have hp1 := hInv.pages i1 (hInv.flen ▸ hi1) hl1
    have hp2 := hInv.pages i2 (hInv.flen ▸ hi2) hl2
    simp only [pageAt] at hp1 hp2
    rw [← hf1] at hp1
    rw [← hf2] at hp2
    rw [hp1] at hp2
    injection hp2 with hrec
    rw [hv1, hv2, Nat.add_comm 1 i1, Nat.add_comm 1 i2, hrec]
  · show countTrue (loadPages r.file 1).2 = (loadPages r.file 1).1.length
    exact (loadPages_length r.file 1).symm

theorem inv_Reachable {n : Nat} {r : Registry} (h : Reachable n r) : Inv n r := by
  induction h with
  | base => exact inv_newEmpty n
  | update rv pk x _ ih => exact inv_Update rv pk x ih
  | prune h0 _ ih => exact inv_Prune h0 ih
  | del f _ ih => exact inv_delete f ih
  | reload _ ih => exact inv_reload ih

/-! ### Prune characterization helpers -/

theorem removeBy_of_filter_nil {sel : Fingerprint × Value → Bool}
    {r : Registry} (hrem : r.entries.filter sel = []) : removeBy sel r = r := by
  have hall := List.filter_eq_nil.mp hrem
  have hkeep : r.entries.filter (fun e => !sel e) = r.entries :=
    List.filter_eq_self.mpr (fun a ha => by
      cases hsa : sel a with
      | false => rfl
      | true => exact absurd hsa (hall a ha))
  show (⟨r.entries.filter (fun e => !sel e),
    setConst ((r.entries.filter sel).map fun e => e.2.staticIndex - 1) false
      r.staticUsage,
    setConst ((r.entries.filter sel).map fun e => e.2.staticIndex - 1) unusedPage
      r.file⟩ : Registry) = r
  rw [hrem, hkeep]
  rfl

theorem prune_filter_nil (r : Registry) (h : Nat) :
    (r.Prune h).reg.entries.filter (fun e => decide (e.2.expiry ≤ h)) = [] := by
  show (List.filter _ (List.filter _ r.entries)) = []
  rw [List.filter_filter]
  have hpt : ∀ x ∈ r.entries,
      ((fun e => decide (e.2.expiry ≤ h)) x &&
        (fun e => !decide (e.2.expiry ≤ h)) x) = (fun _ => false) x :=
    fun x _ => Bool.and_not_self _
  rw [List.filter_congr hpt, List.filter_false]

theorem Prune_reg_idem (r : Registry) (h : Nat) :
    ((r.Prune h).reg.Prune h).reg = (r.Prune h).reg :=
  removeBy_of_filter_nil (prune_filter_nil r h)

theorem Prune_pruned_idem (r : Registry) (h : Nat) :
    ((r.Prune h).reg.Prune h).pruned = 0 := by
  show (List.filter _ _).length = 0
  rw [prune_filter_nil r h]
  rfl

theorem Prune_invalidated_idem (r : Registry) (h : Nat) :
    ((r.Prune h).reg.Prune h).invalidated = [] := by
  show (List.filter _ _).map _ = []
  rw [prune_filter_nil r h]
  rfl

/-! ### Sample states used by the witnesses -/

/-- A sample signed value: public key 3, tweak 7, revision 5. -/
def rvS1 : RegistryValue := ⟨7, [1, 2], 5, Sign 3 7 [1, 2] 5⟩

/-- The sample value re-signed with revision 6. -/
def rvS2 : RegistryValue := ⟨7, [1, 2], 6, Sign 3 7 [1, 2] 6⟩

/-- A two-slot registry holding the sample value. -/
def rS1 : Registry := ((Registry.newEmpty 2).Update rvS1 3 10).1

/-- The record the sample insert stores: slot 1. -/
def vS1 : Value := mkValue 3 rvS1 10 1

/-- A signed value under a different key and tweak (public key 4, tweak 8). -/
def rvS3 : RegistryValue := ⟨8, [], 1, Sign 4 8 [] 1⟩

/-- A one-slot registry holding the sample value (full to capacity). -/
def rC1 : Registry := ((Registry.newEmpty 1).Update rvS1 3 10).1

/-- A signed value expiring at height 1 (public key 11, tweak 1). -/
def rvP1 : RegistryValue := ⟨1, [], 1, Sign 11 1 [] 1⟩

/-- A signed value expiring at height 2 (public key 12, tweak 2). -/
def rvP2 : RegistryValue := ⟨2, [], 1, Sign 12 2 [] 1⟩

/-- A two-slot registry with entries expiring at heights 1 and 2. -/
def rP : Registry :=
  (((Registry.newEmpty 2).Update rvP1 11 1).1.Update rvP2 12 2).1

/-! ### The claims -/

/-- C1.  For a fingerprint with an existing valid entry, an otherwise
admissible Update with revision at most the stored one (equality included)
fails with InvalidRevisionNumber; with a strictly greater revision it
succeeds, replaces the stored fields, and returns existed = true; and the
first successful Update for a fingerprint returns existed = false. -/
theorem update_revision_monotonic_and_existed
    (r : Registry) (rv : RegistryValue) (pk : PublicKey) (x : Nat) (v : Value)
    (hdata : rv.data.length ≤ RegistryDataSize)
    (hsig : rv.verify pk = true) :
    (lookupFp (valueMapKey pk rv.tweak) r.entries = some v → v.invalid = false →
      ((rv.revision ≤ v.revision →
          r.Update rv pk x = (r, .err .errInvalidRevNum)) ∧
       (v.revision < rv.revision →
          (r.Update rv pk x).2 = .ok true ∧
          lookupFp (valueMapKey pk rv.tweak) (r.Update rv pk x).1.entries =
            some (mkValue pk rv x v.staticIndex)))) ∧
    (lookupFp (valueMapKey pk rv.tweak) r.entries = none →
      ∀ b, (r.Update rv pk x).2 = .ok b → b = false) := by
  constructor
  · intro h3 h5
    constructor
    · intro h4
      exact Update_eq_invalidRevNum x hdata hsig h3 h4
    · intro h4
      rw [Update_eq_ok_existing x hdata hsig h3 h4 h5]
      exact ⟨rfl, lookupFp_replaceEntry_self _ h3⟩
  · intro h3 b hb
    cases h6 : setFirstUnset r.staticUsage with
    | none =>
      rw [Update_eq_noFreeBit x hdata hsig h3 h6] at hb
      have hb3 : UpdateResult.err .ErrNoFreeBit = .ok b := hb
      exact UpdateResult.noConfusion hb3
    | some p =>
      obtain ⟨i, u2⟩ := p
      rw [Update_eq_ok_new x hdata hsig h3 h6] at hb
      have hb3 : UpdateResult.ok false = .ok b := hb
      injection hb3 with hb2
      exact hb2.symm

/-- C1 witness: the sample two-slot registry, checked at the stored entry
(revision 5): re-submitting revision 5 is rejected, revision 6 succeeds
with existed = true. -/
theorem update_revision_monotonic_and_existed_witness :
    (lookupFp (valueMapKey 3 rvS2.tweak) rS1.entries = some vS1 →
      vS1.invalid = false →
      ((rvS2.revision ≤ vS1.revision →
          rS1.Update rvS2 3 11 = (rS1, .err .errInvalidRevNum)) ∧
       (vS1.revision < rvS2.revision →
          (rS1.Update rvS2 3 11).2 = .ok true ∧
          lookupFp (valueMapKey 3 rvS2.tweak) (rS1.Update rvS2 3 11).1.entries =
            some (mkValue 3 rvS2 11 vS1.staticIndex)))) ∧
    (lookupFp (valueMapKey 3 rvS2.tweak) rS1.entries = none →
      ∀ b, (rS1.Update rvS2 3 11).2 = .ok b → b = false) :=
  update_revision_monotonic_and_existed rS1 rvS2 3 11 vS1 (by decide) (by decide)

/-- C2.  Every Update call that returns an error leaves the entry index,
the usage bitfield and the on-disk slot file exactly as they were at call
entry. -/
theorem failed_update_leaves_state_unchanged
    (r : Registry) (rv : RegistryValue) (pk : PublicKey) (x : Nat)
    (e : UpdateError) (h : (r.Update rv pk x).2 = .err e) :
    (r.Update rv pk x).1.entries = r.entries ∧
    (r.Update rv pk x).1.staticUsage = r.staticUsage ∧
    (r.Update rv pk x).1.file = r.file := by
  rw [Update_err_frames r rv pk x e h]
  exact ⟨rfl, rfl, rfl⟩

/-- C2 witness: re-submitting the stored revision errors with
InvalidRevisionNumber and leaves the sample registry unchanged. -/
theorem failed_update_leaves_state_unchanged_witness :
    ((rS1.Update rvS1 3 10).2 = .err .errInvalidRevNum) ∧
    (rS1.Update rvS1 3 10).1.entries = rS1.entries ∧
    (rS1.Update rvS1 3 10).1.staticUsage = rS1.staticUsage ∧
    (rS1.Update rvS1 3 10).1.file = rS1.file :=
  ⟨by decide,
   failed_update_leaves_state_unchanged rS1 rvS1 3 10 .errInvalidRevNum (by decide)⟩

/-- C3.  For every sequence of operations from a fresh Registry, reopening
the resulting slot file with `New` reconstructs a usage bitfield equal to
the one before shutdown and an index with exactly the same bindings (every
live entry is recovered with all its fields and its slot index). -/
theorem reload_fidelity {n : Nat} {r : Registry} (h : Reachable n r) :
    (New r.file).staticUsage = r.staticUsage ∧
    ∀ f, lookupFp f (New r.file).entries = lookupFp f r.entries := by
  have hInv := inv_Reachable h
  exact ⟨reload_usage hInv, fun f => reload_lookup hInv f⟩

/-- C3 witness: reloading the sample registry's file reproduces its
bitfield and its binding for the stored fingerprint. -/
theorem reload_fidelity_witness :
    (New rS1.file).staticUsage = rS1.staticUsage ∧
    lookupFp (3, 7) (New rS1.file).entries = lookupFp (3, 7) rS1.entries := by
  have hre : Reachable 2 rS1 := Reachable.update rvS1 3 10 Reachable.base
  have h := reload_fidelity hre
  exact ⟨h.1, h.2 (3, 7)⟩

/-- C4.  Prune(h) removes exactly the entries with expiry at most h and
returns their count; each removed entry is marked invalid in the returned
handles, its bit is cleared, its slot page is rewritten unused and its
mapping removed; entries with larger expiry keep their binding; and a
second Prune with the same horizon removes nothing. -/
theorem prune_spec {n : Nat} (r : Registry) (h : Nat) (hInv : Inv n r) :
    (r.Prune h).reg.entries =
      r.entries.filter (fun e => decide (h < e.2.expiry)) ∧
    (r.Prune h).pruned =
      (r.entries.filter (fun e => decide (e.2.expiry ≤ h))).length ∧
    (∀ e ∈ r.entries, e.2.expiry ≤ h →
       ({ e.2 with invalid := true } ∈ (r.Prune h).invalidated ∧
        (r.Prune h).reg.staticUsage.getD (e.2.staticIndex - 1) false = false ∧
        (r.Prune h).reg.file.getD (e.2.staticIndex - 1) unusedPage = unusedPage ∧
        lookupFp e.1 (r.Prune h).reg.entries = none)) ∧
    (∀ e ∈ r.entries, h < e.2.expiry →
       lookupFp e.1 (r.Prune h).reg.entries = some e.2) ∧
    ((r.Prune h).reg.Prune h).reg = (r.Prune h).reg ∧
    ((r.Prune h).reg.Prune h).pruned = 0 ∧
    ((r.Prune h).reg.Prune h).invalidated = [] := by
  refine ⟨?_, rfl, ?_, ?_, Prune_reg_idem r h, Prune_pruned_idem r h,
    Prune_invalidated_idem r h⟩
  · show List.filter (fun e => !decide (e.2.expiry ≤ h)) r.entries = _
    refine List.filter_congr ?_
    intro e _
    by_cases hx : e.2.expiry ≤ h
    · simp [hx, Nat.not_lt.mpr hx]
    · simp [hx, Nat.not_le.mp hx]
  · intro e he hexp
    have hoe := hInv.entriesOk e he
    have hsp : 1 ≤ e.2.staticIndex := hoe.slotPos
    have hsl : e.2.staticIndex ≤ n := hoe.slotLe
    have hsel : decide (e.2.expiry ≤ h) = true := decide_eq_true hexp
    have hrm : e ∈ r.entries.filter (fun e2 => decide (e2.2.expiry ≤ h)) :=
      List.mem_filter.mpr ⟨he, hsel⟩
    have hpmem : e.2.staticIndex - 1 ∈
        (r.entries.filter (fun e2 => decide (e2.2.expiry ≤ h))).map
          (fun e2 => e2.2.staticIndex - 1) :=
      List.mem_map.mpr ⟨e, hrm, rfl⟩
    refine ⟨?_, ?_, ?_, ?_⟩
    · show ({ e.2 with invalid := true }) ∈ (List.filter _ _).map _
      exact List.mem_map.mpr ⟨e, hrm, rfl⟩
    · show (setConst _ false r.staticUsage).getD _ false = false
      exact getD_setConst_mem _ _ _ hpmem (by rw [hInv.ulen]; omega)
    · show (setConst _ unusedPage r.file).getD _ unusedPage = unusedPage
      exact getD_setConst_mem _ _ _ hpmem (by rw [hInv.flen]; omega)
    · have hl : lookupFp e.1 r.entries = some e.2 :=
        lookupFp_of_mem_nodup hInv.keysNodup
          (show (e.1, e.2) ∈ r.entries from he)
      show lookupFp e.1
        (List.filter (fun e2 => !decide (e2.2.expiry ≤ h)) r.entries) = none
      refine lookupFp_filter_dropped _ hInv.keysNodup hl ?_
      show (!decide (e.2.expiry ≤ h)) = false
      rw [hsel]
      rfl
  · intro e he hexp
    have hl : lookupFp e.1 r.entries = some e.2 :=
      lookupFp_of_mem_nodup hInv.keysNodup
        (show (e.1, e.2) ∈ r.entries from he)
    show lookupFp e.1
      (List.filter (fun e2 => !decide (e2.2.expiry ≤ h)) r.entries) = some e.2
    refine lookupFp_filter_of_some _ hInv.keysNodup hl ?_
    show (!decide (e.2.expiry ≤ h)) = true
    rw [decide_eq_false (Nat.not_le.mpr hexp)]
    rfl

/-- C4 witness: pruning the two-entry sample registry at horizon 1 removes
exactly the entry expiring at 1 and a second Prune removes nothing. -/
theorem prune_spec_witness :
    (rP.Prune 1).reg.entries =
      rP.entries.filter (fun e => decide (1 < e.2.expiry)) ∧
    (rP.Prune 1).pruned =
      (rP.entries.filter (fun e => decide (e.2.expiry ≤ 1))).length ∧
    ((rP.Prune 1).reg.Prune 1).reg = (rP.Prune 1).reg ∧
    ((rP.Prune 1).reg.Prune 1).pruned = 0 ∧
    ((rP.Prune 1).reg.Prune 1).invalidated = [] := by
  have hreach : Reachable 2 rP :=
    Reachable.update rvP2 12 2 (Reachable.update rvP1 11 1 Reachable.base)
  have h4 := prune_spec rP 1 (inv_Reachable hreach)
  exact ⟨h4.1, h4.2.1, h4.2.2.2.2.1, h4.2.2.2.2.2.1, h4.2.2.2.2.2.2⟩

/-- C5.  A Registry created with max_entries = n holding n distinct
fingerprints rejects an otherwise admissible Update for an (n+1)-th
fingerprint with NoFreeBit, and the index still holds exactly n entries. -/
theorem capacity_noFreeBit {n : Nat} {r : Registry} (hr : Reachable n r)
    (hfull : r.entries.length = n) (rv : RegistryValue) (pk : PublicKey)
    (x : Nat)
    (hnew : lookupFp (valueMapKey pk rv.tweak) r.entries = none)
    (hdata : rv.data.length ≤ RegistryDataSize)
    (hsig : rv.verify pk = true) :
    r.Update rv pk x = (r, .err .ErrNoFreeBit) ∧
    (r.Update rv pk x).1.entries.length = n := by
  have hInv := inv_Reachable hr
  have hcount : countTrue r.staticUsage = r.staticUsage.length := by
    rw [hInv.count, hfull, hInv.ulen]
  have hsf : setFirstUnset r.staticUsage = none :=
    setFirstUnset_none_of_all_true _ (all_true_of_countTrue_eq_length _ hcount)
  have heq := Update_eq_noFreeBit x hdata hsig hnew hsf
  refine ⟨heq, ?_⟩
  rw [heq]
  exact hfull

/-- C5 witness: a full one-slot registry rejects a second distinct
fingerprint with NoFreeBit and keeps its single entry. -/
theorem capacity_noFreeBit_witness :
    rC1.Update rvS3 4 5 = (rC1, .err .ErrNoFreeBit) ∧
    (rC1.Update rvS3 4 5).1.entries.length = 1 :=
  capacity_noFreeBit (Reachable.update rvS1 3 10 Reachable.base)
    (by decide) rvS3 4 5 (by decide) (by decide) (by decide)

/-- C6.  After every operation reachable from a fresh Registry, the number
of set bits equals the index size, no two entries share a slot index, and
every slot index lies in [1, n]. -/
theorem post_operation_invariants {n : Nat} {r : Registry}
    (hr : Reachable n r) :
    countTrue r.staticUsage = r.entries.length ∧
    (r.entries.map fun e => e.2.staticIndex).Nodup ∧
    (∀ e ∈ r.entries, 1 ≤ e.2.staticIndex ∧ e.2.staticIndex ≤ n) := by
  have hInv := inv_Reachable hr
  exact ⟨hInv.count, hInv.slotsNodup, fun e he =>
    ⟨(hInv.entriesOk e he).slotPos, (hInv.entriesOk e he).slotLe⟩⟩

/-- C6 witness: the cardinality, uniqueness and range invariants hold for
the sample registry after its insert. -/
theorem post_operation_invariants_witness :
    countTrue rS1.staticUsage = rS1.entries.length ∧
    (rS1.entries.map fun e => e.2.staticIndex).Nodup ∧
    (∀ e ∈ rS1.entries, 1 ≤ e.2.staticIndex ∧ e.2.staticIndex ≤ 2) :=
  post_operation_invariants (Reachable.update rvS1 3 10 Reachable.base)

/-- C7.  Slot allocation is deterministic: a successful Update for a new
fingerprint stores its record at slot i+1 where i is the lowest clear bit
(so all lower slots are in use and bit i is free), and a successful Update
for an existing fingerprint keeps the stored slot index. -/
theorem slot_allocation_deterministic
    (r : Registry) (rv : RegistryValue) (pk : PublicKey) (x : Nat)
    (hdata : rv.data.length ≤ RegistryDataSize)
    (hsig : rv.verify pk = true) :
    (∀ i u2, lookupFp (valueMapKey pk rv.tweak) r.entries = none →
       setFirstUnset r.staticUsage = some (i, u2) →
       lookupFp (valueMapKey pk rv.tweak) (r.Update rv pk x).1.entries =
         some (mkValue pk rv x (i + 1)) ∧
       r.staticUsage.getD i false = false ∧
       (∀ j, j < i → r.staticUsage.getD j false = true)) ∧
    (∀ v, lookupFp (valueMapKey pk rv.tweak) r.entries = some v →
       v.invalid = false → v.revision < rv.revision →
       lookupFp (valueMapKey pk rv.tweak) (r.Update rv pk x).1.entries =
         some (mkValue pk rv x v.staticIndex)) := by
  constructor
  · intro i u2 h3 h6
    obtain ⟨hilt, hbit, hbefore, _⟩ := setFirstUnset_eq_some _ _ _ h6
    refine ⟨?_, hbit, hbefore⟩
    rw [Update_eq_ok_new x hdata hsig h3 h6]
    show lookupFp _ (r.entries ++
      [(valueMapKey pk rv.tweak, mkValue pk rv x (i + 1))]) = _
    rw [lookupFp_append_right h3, lookupFp, if_pos rfl]
  · intro v h3 h5 h4
    rw [Update_eq_ok_existing x hdata hsig h3 h4 h5]
    exact lookupFp_replaceEntry_self _ h3

/-- C7 witness: in the sample registry (slot 1 taken), a new fingerprint
is stored at slot 2, the lowest free one; re-updating the stored
fingerprint keeps slot 1. -/
theorem slot_allocation_deterministic_witness :
    (∀ i u2, lookupFp (valueMapKey 4 rvS3.tweak) rS1.entries = none →
       setFirstUnset rS1.staticUsage = some (i, u2) →
       lookupFp (valueMapKey 4 rvS3.tweak) (rS1.Update rvS3 4 5).1.entries =
         some (mkValue 4 rvS3 5 (i + 1)) ∧
       rS1.staticUsage.getD i false = false ∧
       (∀ j, j < i → rS1.staticUsage.getD j false = true)) ∧
    (∀ v, lookupFp (valueMapKey 4 rvS3.tweak) rS1.entries = some v →
       v.invalid = false → v.revision < rvS3.revision →
       lookupFp (valueMapKey 4 rvS3.tweak) (rS1.Update rvS3 4 5).1.entries =
         some (mkValue 4 rvS3 5 v.staticIndex)) :=
  slot_allocation_deterministic rS1 rvS3 4 5 (by decide) (by decide)

/-- C8.  On load, New inserts into the index exactly those entry pages
whose checksum verifies and whose used flag is set, setting the matching
bit for each; a page with a clear used flag is treated as free regardless
of its decoded contents and its bit stays clear. -/
theorem load_inserts_exactly_live_pages (file : List Page) :
    (New file).staticUsage = file.map Page.live ∧
    (∀ f v, (f, v) ∈ (New file).entries ↔
      ∃ i, i < file.length ∧ (file.getD i unusedPage).live = true ∧
        f = (file.getD i unusedPage).body.fingerprint ∧
        v = (file.getD i unusedPage).body.reconstruct (i + 1)) ∧
    (∀ i, i < file.length → (file.getD i unusedPage).used = false →
       (New file).staticUsage.getD i false = false) := by
  refine ⟨loadPages_snd file 1, ?_, ?_⟩
  · intro f v
    show (f, v) ∈ (loadPages file 1).1 ↔ _
    rw [mem_loadPages]
    constructor
    · rintro ⟨i, hi, h1, h2, h3⟩
      exact ⟨i, hi, h1, h2, by rw [h3, Nat.add_comm]⟩
    · rintro ⟨i, hi, h1, h2, h3⟩
      exact ⟨i, hi, h1, h2, by rw [h3, Nat.add_comm]⟩
  · intro i hi hused
    show (loadPages file 1).2.getD i false = false
    rw [loadPages_snd file 1, getD_map_live]
    show ((file.getD i unusedPage).checksumOk &&
      (file.getD i unusedPage).used) = false
    rw [hused, Bool.and_false]

/-- C9.  Update checks its admission rules in the order size, signature,
revision, entry-not-invalidated, capacity, returning the first failure:
over-long data gives TooMuchData; a bad signature (for example a
validly-signed value whose revision was bumped without re-signing) gives
InvalidSignature; an invalidated entry gives InvalidEntry even with a
strictly greater revision and a valid signature. -/
theorem admission_rules_order
    (r : Registry) (rv : RegistryValue) (pk : PublicKey) (x : Nat) :
    (RegistryDataSize < rv.data.length →
       r.Update rv pk x = (r, .err .errTooMuchData)) ∧
    (rv.data.length ≤ RegistryDataSize → rv.verify pk = false →
       r.Update rv pk x = (r, .err .errInvalidSignature)) ∧
    (∀ sk t d rev,
       (RegistryValue.mk t d (rev + 1) (Sign sk t d rev)).verify sk = false) ∧
    (∀ v, rv.data.length ≤ RegistryDataSize → rv.verify pk = true →
       lookupFp (valueMapKey pk rv.tweak) r.entries = some v →
       rv.revision ≤ v.revision →
       r.Update rv pk x = (r, .err .errInvalidRevNum)) ∧
    (∀ v, rv.data.length ≤ RegistryDataSize → rv.verify pk = true →
       lookupFp (valueMapKey pk rv.tweak) r.entries = some v →
       v.revision < rv.revision → v.invalid = true →
       r.Update rv pk x = (r, .err .errInvalidEntry)) ∧
    (rv.data.length ≤ RegistryDataSize → rv.verify pk = true →
       lookupFp (valueMapKey pk rv.tweak) r.entries = none →
       setFirstUnset r.staticUsage = none →
       r.Update rv pk x = (r, .err .ErrNoFreeBit)) := by
  refine ⟨?_, ?_, ?_, ?_, ?_, ?_⟩
  · exact Update_eq_tooMuchData r rv pk x
  · exact Update_eq_invalidSignature r rv pk x
  · intro sk t d rev
    simp only [RegistryValue.verify, Sign, decide_eq_false_iff_not]
    intro hh
    have h2 : rev = rev + 1 := congrArg (fun s : Sig => s.2.2.2) hh
    omega
  · intro v h1 h2 h3 h4
    exact Update_eq_invalidRevNum x h1 h2 h3 h4
  · intro v h1 h2 h3 h4 h5
    exact Update_eq_invalidEntry x h1 h2 h3 h4 h5
  · intro h1 h2 h3 h6
    exact Update_eq_noFreeBit x h1 h2 h3 h6

/-- C10.  The invalid flag is never persisted: every entry an index
reconstructed by New carries invalid = false, such an entry accepts an
otherwise admissible Update with a higher revision, and a pruned
fingerprint is absent after reload. -/
theorem invalid_flag_not_persisted :
    (∀ (file : List Page) (f : Fingerprint) (v : Value),
       lookupFp f (New file).entries = some v → v.invalid = false) ∧
    (∀ (file : List Page) (rv : RegistryValue) (pk : PublicKey) (x : Nat)
       (v : Value),
       lookupFp (valueMapKey pk rv.tweak) (New file).entries = some v →
       rv.data.length ≤ RegistryDataSize → rv.verify pk = true →
       v.revision < rv.revision → ((New file).Update rv pk x).2 = .ok true) ∧
    (∀ (n : Nat) (r : Registry) (h : Nat) (f : Fingerprint) (v : Value),
       Inv n r → lookupFp f r.entries = some v → v.expiry ≤ h →
       lookupFp f (New (r.Prune h).reg.file).entries = none) := by
  refine ⟨?_, ?_, ?_⟩
  · intro file f v hl
    exact loaded_invalid_false hl
  · intro file rv pk x v hl hdata hsig hrev
    rw [Update_eq_ok_existing x hdata hsig hl hrev (loaded_invalid_false hl)]
  · intro n r h f v hInv hl hexp
    have hInv2 : Inv n (r.Prune h).reg := inv_Prune h hInv
    rw [reload_lookup hInv2 f]
    show lookupFp f
      (List.filter (fun e => !decide (e.2.expiry ≤ h)) r.entries) = none
    refine lookupFp_filter_dropped _ hInv.keysNodup hl ?_
    show (!decide (v.expiry ≤ h)) = false
    rw [decide_eq_true hexp]
    rfl

end Sia
